import Mathlib

/-!
# beegae `namespace.go`: route namespaces, prefix rewriting and filter grafting

A shallow embedding of `src/namespace.go`.

Modelling conventions

* A Go `string` is a Lean `String`; `prefix + c.pattern` is `++`.  Go compares bytes and
  Lean characters, which agree on concatenation and on prefixes for well-formed UTF-8.
* `*controllerInfo` values are heap objects that several leaves (and several per-method
  trees) may point to.  They are modelled by references (`Nat`) into a `Store` that maps a
  reference to the `pattern` field of the object; `addPrefix` is a `Store` transformer.
* A Go `map` is an association list read with `mapGet` and written with `mapSet`;
  `for k, v := range m` visits the entries in list order (one of the orders Go may pick).
* `*Tree` structure is a value; only `controllerInfo.pattern` and `FilterRouter.tree` are
  mutated through pointers by this file, and both mutations are tracked explicitly
  (the first in the `Store`, the second in the namespaces handed back by the graft).
* The field `prefix` of `Namespace` is called `pfx` (`prefix` is reserved in Lean).
-/

namespace Beegae

set_option linter.dupNamespace false

/-! ## Go runtime values -/

/-- The heap of `controllerInfo` objects: reference ↦ its `pattern` field. -/
abbrev Store := Nat → String

/-- Go `strings.HasPrefix`:
`len(s) >= len(prefix) && s[0:len(prefix)] == prefix`. -/
def strings.HasPrefix (s pfx : String) : Bool :=
  decide (s.length ≥ pfx.length) && (s.data.take pfx.length == pfx.data)

/-- Go map read `v, ok := m[k]`. -/
def mapGet {κ α : Type} [DecidableEq κ] : List (κ × α) → κ → Option α
  | [], _ => none
  | (k', v) :: rest, k => if k' = k then some v else mapGet rest k

/-- Go map write `m[k] = v`: overwrite the entry of `k`, or add one. -/
def mapSet {κ α : Type} [DecidableEq κ] : List (κ × α) → κ → α → List (κ × α)
  | [], k, v => [(k, v)]
  | (k', v') :: rest, k, v =>
    if k' = k then (k, v) :: rest else (k', v') :: mapSet rest k v

/-! ## Trees (type used by `namespace.go`; fields `fixrouters`, `wildcard`, `leaves`) -/

/-- The dynamic type of `leafInfo.runObject`: a `*controllerInfo` (by reference), or the
marker value `true` that filter trees store (`mr.tree.AddRouter("*", true)`). -/
inductive RunObject where
  | controllerInfo (c : Nat)
  | marker (b : Bool)
deriving DecidableEq, Repr

/-- A leaf of a tree; `namespace.go` reads its `runObject` only. -/
structure leafInfo where
  runObject : RunObject
deriving DecidableEq, Repr

/-- The route tree: `fixrouters map[string]*Tree`, `wildcard *Tree`, `leaves []*leafInfo`. -/
inductive Tree where
  | mk (fixrouters : List (String × Tree)) (wildcard : Option Tree) (leaves : List leafInfo)

/-- The `for _, l := range t.leaves` loop of `addPrefix` (lines 269-275). -/
def addPrefixLeaves (leaves : List leafInfo) (pfx : String) (σ : Store) : Store :=
  match leaves with
  | [] => σ
  | l :: rest =>
    match l.runObject with
    | .controllerInfo c =>
      if !strings.HasPrefix (σ c) pfx then
        addPrefixLeaves rest pfx (Function.update σ c (pfx ++ σ c))
      else
        addPrefixLeaves rest pfx σ
    | .marker _ => addPrefixLeaves rest pfx σ

mutual
/-- `addPrefix(t, prefix)` (lines 262-277): fixed children, then the wildcard child, then
the leaves of the node itself. -/
def addPrefix (t : Tree) (pfx : String) (σ : Store) : Store :=
  match t with
  | .mk fixrouters wildcard leaves =>
    let σ1 := addPrefixFix fixrouters pfx σ
    let σ2 := addPrefixWild wildcard pfx σ1
    addPrefixLeaves leaves pfx σ2
/-- The loop `for _, v := range t.fixrouters { addPrefix(v, prefix) }`. -/
def addPrefixFix (fixrouters : List (String × Tree)) (pfx : String) (σ : Store) : Store :=
  match fixrouters with
  | [] => σ
  | (_, v) :: rest => addPrefixFix rest pfx (addPrefix v pfx σ)
/-- The statement `if t.wildcard != nil { addPrefix(t.wildcard, prefix) }`. -/
def addPrefixWild (wildcard : Option Tree) (pfx : String) (σ : Store) : Store :=
  match wildcard with
  | none => σ
  | some v => addPrefix v pfx σ
end

/-- The `controllerInfo` references held by a list of leaves, in order. -/
def leafRefs : List leafInfo → List Nat
  | [] => []
  | l :: rest =>
    match l.runObject with
    | .controllerInfo c => c :: leafRefs rest
    | .marker _ => leafRefs rest

mutual
/-- Every `controllerInfo` reference stored at a leaf anywhere in the tree. -/
def Tree.refs (t : Tree) : List Nat :=
  match t with
  | .mk fixrouters wildcard leaves =>
    refsFix fixrouters ++ (refsWild wildcard ++ leafRefs leaves)
/-- The references below the fixed children. -/
def refsFix (fixrouters : List (String × Tree)) : List Nat :=
  match fixrouters with
  | [] => []
  | (_, v) :: rest => v.refs ++ refsFix rest
/-- The references below the wildcard child. -/
def refsWild (wildcard : Option Tree) : List Nat :=
  match wildcard with
  | none => []
  | some v => v.refs
end

/-! ## Tree operations of `tree.go` called by `namespace.go` -/

/-- Modelled from the spec: `NewTree` (tree.go is not part of the sources): a PathTree with
no fixed children, no wildcard child and no leaves. -/
def NewTree : Tree := .mk [] none []

/-- Modelled from the spec: cutting a path at every `/` (tree.go is not part of the
sources); used by `splitPath`. -/
def splitSlash : List Char → List (List Char)
  | [] => [[]]
  | c :: cs =>
    match splitSlash cs with
    | [] => [[]]
    | seg :: segs => if c = '/' then [] :: seg :: segs else (c :: seg) :: segs

/-- Modelled from the spec: the segments of a path or pattern (tree.go is not part of the
sources): the non-empty pieces between slashes. -/
def splitPath (key : String) : List String :=
  ((splitSlash key.data).filter (fun seg => !seg.isEmpty)).map String.mk

/-- Modelled from the spec: whether a segment is "parametric or wildcard" (tree.go is not
part of the sources; the spec does not fix the syntax): it contains `:` or `*`. -/
def isWildSegment (seg : String) : Bool :=
  seg.data.any (fun c => c = ':' || c = '*')

/-- Modelled from the spec: the descent of PathTree `Insert(pattern, target)`: literal
segments create or reuse fixed children, a parametric or wildcard segment creates or reuses
the single wildcard child, and the target is appended to the leaves of the last node. -/
def Tree.addseg : List String → RunObject → Tree → Tree
  | [], route, .mk fx w lv => .mk fx w (lv ++ [⟨route⟩])
  | seg :: rest, route, .mk fx w lv =>
    if isWildSegment seg then
      .mk fx (some (Tree.addseg rest route (w.getD NewTree))) lv
    else
      .mk (mapSet fx seg (Tree.addseg rest route ((mapGet fx seg).getD NewTree))) w lv

/-- Modelled from the spec: `Tree.AddRouter(pattern, runObject)`, the PathTree
`Insert(pattern, target)` of §4.1 (tree.go is not part of the sources). -/
def Tree.AddRouter (t : Tree) (pattern : String) (runObject : RunObject) : Tree :=
  Tree.addseg (splitPath pattern) runObject t

mutual
/-- Modelled from the spec: merging a grafted subtree into an existing node (§4.1
GraftSubtree, tree.go is not part of the sources): its fixed children, wildcard child and
leaves are attached to the node; a fixed child or wildcard child that the node already has
is merged into, recursively, rather than overwritten. -/
def Tree.merge (tree : Tree) (t : Tree) : Tree :=
  match tree, t with
  | .mk sfx sw slv, .mk fx w lv => .mk (mergeFix sfx fx) (mergeWild sw w) (lv ++ slv)
/-- Modelled from the spec: attaching the fixed children of a grafted subtree (§4.1). -/
def mergeFix (sfx : List (String × Tree)) (fx : List (String × Tree)) : List (String × Tree) :=
  match sfx with
  | [] => fx
  | (seg, c) :: rest =>
    mergeFix rest (mapSet fx seg
      (match mapGet fx seg with
       | some d => Tree.merge c d
       | none => c))
/-- Modelled from the spec: attaching the wildcard child of a grafted subtree (§4.1). -/
def mergeWild (sw : Option Tree) (w : Option Tree) : Option Tree :=
  match sw with
  | none => w
  | some c =>
    match w with
    | none => some c
    | some d => some (Tree.merge c d)
end

/-- Modelled from the spec: the descent of GraftSubtree along the segments of the prefix
(§4.1): an existing fixed child matching the head segment is descended into, a missing one
is created; at the end of the prefix the subtree is merged into the node reached. -/
def Tree.addtree : List String → Tree → Tree → Tree
  | [], tree, t => Tree.merge tree t
  | seg :: rest, tree, .mk fx w lv =>
    .mk (mapSet fx seg (Tree.addtree rest tree ((mapGet fx seg).getD NewTree))) w lv

/-- Modelled from the spec: `Tree.AddTree(prefix, tree)`, the PathTree
`GraftSubtree(prefix, subtree)` of §4.1 (tree.go is not part of the sources). -/
def Tree.AddTree (t : Tree) (pfx : String) (tree : Tree) : Tree :=
  Tree.addtree (splitPath pfx) tree t

/-! ## Request context, filters and the registry (types used by `namespace.go`) -/

/-- The response writer of a request, seen through the only call `namespace.go` makes on
it: the error pages `(errcode, msg)` rendered to it so far. -/
abbrev ResponseWriter := List (String × String)

/-- The part of `*beecontext.Context` that `namespace.go` touches: `Request` (opaque
request data, read by predicates) and `ResponseWriter`. -/
structure Context where
  Request : String
  ResponseWriter : ResponseWriter

/-- External collaborator `middleware.Exception(errcode, w, r, msg)` of the surrounding
framework (package `beego/middleware`): renders the error page `errcode` with message `msg`
to `w`; the model records the page on the writer. -/
def middleware.Exception (errcode : String) (w : ResponseWriter) (_r : String)
    (msg : String) : ResponseWriter :=
  w ++ [(errcode, msg)]

/-- `type namespaceCond func(*beecontext.Context) bool` (line 25). -/
abbrev namespaceCond := Context → Bool

/-- `FilterFunc`, a `func(*context.Context)`: it acts on the context it is given. -/
abbrev FilterFunc := Context → Context

/-- `FilterRouter`, with the fields `namespace.go` assigns: `tree`, `pattern`,
`filterFunc`.  The position of a filter is the key of the list that holds it. -/
structure FilterRouter where
  filterFunc : FilterFunc
  tree : Tree
  pattern : String

/-- `ControllerRegistor`, with the fields `namespace.go` uses: `routers map[string]*Tree`,
`filters map[int][]*FilterRouter`, `enableFilter bool`. -/
structure ControllerRegistor where
  routers : List (String × Tree)
  filters : List (Int × List FilterRouter)
  enableFilter : Bool

/-- Go value read `p.filters[pos]`: the list at that position, `nil` when there is none. -/
def ControllerRegistor.filtersAt (p : ControllerRegistor) (pos : Int) : List FilterRouter :=
  (mapGet p.filters pos).getD []

/-- Modelled from the spec: `NewControllerRegister` (router.go is not part of the sources):
a registry with no trees, no filters, filters not enabled. -/
def NewControllerRegister : ControllerRegistor :=
  { routers := [], filters := [], enableFilter := false }

/-- Modelled from the spec: `ControllerRegistor.insertFilterRouter(pos, mr)` (router.go is
not part of the sources): the filter is appended to the end of the list of its position
(§4.3) and filters are enabled ("true once any filter is registered"). -/
def ControllerRegistor.insertFilterRouter (p : ControllerRegistor) (pos : Int)
    (mr : FilterRouter) : ControllerRegistor :=
  { p with filters := mapSet p.filters pos (p.filtersAt pos ++ [mr]), enableFilter := true }

/-- Modelled from the spec: `ControllerRegistor.InsertFilter(pattern, pos, filter)`
(router.go is not part of the sources): builds the FilterRouter of §3 (pattern, a tree
holding the pattern with a marker object, the filter function) and appends it at `pos`. -/
def ControllerRegistor.InsertFilter (p : ControllerRegistor) (pattern : String) (pos : Int)
    (filter : FilterFunc) : ControllerRegistor :=
  let mr : FilterRouter :=
    { tree := NewTree.AddRouter pattern (.marker true), pattern := pattern, filterFunc := filter }
  p.insertFilterRouter pos mr

/-! ## `namespace.go` -/

/-- `type Namespace struct { prefix string; handlers *ControllerRegistor }` (lines 30-33). -/
structure Namespace where
  pfx : String
  handlers : ControllerRegistor

/-- The process-wide `BeeApp`, of which `namespace.go` uses `BeeApp.Handlers`. -/
structure App where
  Handlers : ControllerRegistor

/-- `NewNamespace(prefix, params...)` (lines 36-45). -/
def NewNamespace (pfx : String) (params : List (Namespace → Namespace)) : Namespace :=
  params.foldl (fun ns p => p ns) { pfx := pfx, handlers := NewControllerRegister }

/-- `(n *Namespace) Cond(cond)` (lines 57-74).  `BeforeRouter` is the position constant of
that name, declared outside `namespace.go`. -/
def Namespace.Cond (BeforeRouter : Int) (n : Namespace) (cond : namespaceCond) : Namespace :=
  let fn : FilterFunc := fun ctx =>
    if !cond ctx then
      { ctx with ResponseWriter :=
          middleware.Exception "405" ctx.ResponseWriter ctx.Request "Method not allowed" }
    else ctx
  match mapGet n.handlers.filters BeforeRouter with
  | some v =>
    let mr : FilterRouter :=
      { tree := NewTree.AddRouter "*" (.marker true), pattern := "*", filterFunc := fn }
    { n with handlers :=
        { n.handlers with filters := mapSet n.handlers.filters BeforeRouter (mr :: v) } }
  | none =>
    { n with handlers := n.handlers.InsertFilter "*" BeforeRouter fn }

/-- `(n *Namespace) Filter(action, filter...)` (lines 86-97).  `BeforeRouter` and
`FinishRouter` are the position constants of those names, declared outside `namespace.go`;
`var a int` starts at 0. -/
def Namespace.Filter (BeforeRouter FinishRouter : Int) (n : Namespace) (action : String)
    (filter : List FilterFunc) : Namespace :=
  let a : Int :=
    if action = "before" then BeforeRouter
    else if action = "after" then FinishRouter
    else 0
  filter.foldl (fun n f => { n with handlers := n.handlers.InsertFilter "*" a f }) n

/-- The loop `for k, v := range ni.handlers.routers` of `Namespace.Namespace`
(lines 209-219). -/
def Namespace.rangeRouters (ni : Namespace) :
    List (String × Tree) → Namespace → Store → Namespace × Store
  | [], n, σ => (n, σ)
  | (k, v) :: rest, n, σ =>
    match mapGet n.handlers.routers k with
    | some t =>
      let σ := addPrefix v ni.pfx σ
      let n := { n with handlers :=
        { n.handlers with routers := mapSet n.handlers.routers k (t.AddTree ni.pfx v) } }
      Namespace.rangeRouters ni rest n σ
    | none =>
      let t := NewTree
      let t := t.AddTree ni.pfx v
      let σ := addPrefix t ni.pfx σ
      let n := { n with handlers :=
        { n.handlers with routers := mapSet n.handlers.routers k t } }
      Namespace.rangeRouters ni rest n σ

/-- The loop `for _, mr := range filterList` of `Namespace.Namespace` (lines 222-227);
also hands back the filters of the child as `mr.tree = t` leaves them. -/
def Namespace.rangeFilterList (ni : Namespace) (pos : Int) :
    List FilterRouter → Namespace → Namespace × List FilterRouter
  | [], n => (n, [])
  | mr :: rest, n =>
    let t := NewTree
    let t := t.AddTree ni.pfx mr.tree
    let mr := { mr with tree := t }
    let n := { n with handlers := n.handlers.insertFilterRouter pos mr }
    let r := Namespace.rangeFilterList ni pos rest n
    (r.1, mr :: r.2)

/-- The loop `for pos, filterList := range ni.handlers.filters` of `Namespace.Namespace`
(lines 221-228). -/
def Namespace.rangeFilters (ni : Namespace) :
    List (Int × List FilterRouter) → Namespace → Namespace × List (Int × List FilterRouter)
  | [], n => (n, [])
  | (pos, filterList) :: rest, n =>
    let r := Namespace.rangeFilterList ni pos filterList n
    let r2 := Namespace.rangeFilters ni rest r.1
    (r2.1, (pos, r.2) :: r2.2)

/-- `(n *Namespace) Namespace(ns...)` (lines 207-232).  Returns the receiver, the grafted
namespaces as the call leaves them, and the heap of routes. -/
def Namespace.Namespace (n : Beegae.Namespace) (ns : List Beegae.Namespace) (σ : Store) :
    Beegae.Namespace × List Beegae.Namespace × Store :=
  match ns with
  | [] => (n, [], σ)
  | ni :: rest =>
    let r := Namespace.rangeRouters ni ni.handlers.routers n σ
    let f : Beegae.Namespace × Beegae.Namespace :=
      if ni.handlers.enableFilter then
        let q := Namespace.rangeFilters ni ni.handlers.filters r.1
        (q.1, { ni with handlers := { ni.handlers with filters := q.2 } })
      else (r.1, ni)
    let out := Namespace.Namespace f.1 rest r.2
    (out.1, f.2 :: out.2.1, out.2.2)

/-- The loop `for k, v := range n.handlers.routers` of `AddNamespace` (lines 238-248). -/
def AddNamespace.rangeRouters (n : Namespace) :
    List (String × Tree) → App → Store → App × Store
  | [], BeeApp, σ => (BeeApp, σ)
  | (k, v) :: rest, BeeApp, σ =>
    match mapGet BeeApp.Handlers.routers k with
    | some t =>
      let σ := addPrefix v n.pfx σ
      let BeeApp : App := { Handlers :=
        { BeeApp.Handlers with routers := mapSet BeeApp.Handlers.routers k (t.AddTree n.pfx v) } }
      AddNamespace.rangeRouters n rest BeeApp σ
    | none =>
      let t := NewTree
      let t := t.AddTree n.pfx v
      let σ := addPrefix t n.pfx σ
      let BeeApp : App := { Handlers :=
        { BeeApp.Handlers with routers := mapSet BeeApp.Handlers.routers k t } }
      AddNamespace.rangeRouters n rest BeeApp σ

/-- The loop `for _, mr := range filterList` of `AddNamespace` (lines 251-256). -/
def AddNamespace.rangeFilterList (n : Namespace) (pos : Int) :
    List FilterRouter → App → App × List FilterRouter
  | [], BeeApp => (BeeApp, [])
  | mr :: rest, BeeApp =>
    let t := NewTree
    let t := t.AddTree n.pfx mr.tree
    let mr := { mr with tree := t }
    let BeeApp : App := { Handlers := BeeApp.Handlers.insertFilterRouter pos mr }
    let r := AddNamespace.rangeFilterList n pos rest BeeApp
    (r.1, mr :: r.2)

/-- The loop `for pos, filterList := range n.handlers.filters` of `AddNamespace`
(lines 250-257). -/
def AddNamespace.rangeFilters (n : Namespace) :
    List (Int × List FilterRouter) → App → App × List (Int × List FilterRouter)
  | [], BeeApp => (BeeApp, [])
  | (pos, filterList) :: rest, BeeApp =>
    let r := AddNamespace.rangeFilterList n pos filterList BeeApp
    let r2 := AddNamespace.rangeFilters n rest r.1
    (r2.1, (pos, r.2) :: r2.2)

/-- `AddNamespace(nl...)` (lines 236-260), acting on the process-wide `BeeApp`.  Returns
`BeeApp`, the registered namespaces as the call leaves them, and the heap of routes. -/
def AddNamespace (nl : List Namespace) (BeeApp : App) (σ : Store) :
    App × List Namespace × Store :=
  match nl with
  | [] => (BeeApp, [], σ)
  | n :: rest =>
    let r := AddNamespace.rangeRouters n n.handlers.routers BeeApp σ
    let f : App × Namespace :=
      if n.handlers.enableFilter then
        let q := AddNamespace.rangeFilters n n.handlers.filters r.1
        (q.1, { n with handlers := { n.handlers with filters := q.2 } })
      else (r.1, n)
    let out := AddNamespace rest f.1 r.2
    (out.1, f.2 :: out.2.1, out.2.2)

/-! ## Inputs used by the concrete checks -/

/-- A tree with a fixed child, a wildcard child and a leaf of its own. -/
def sampleTree : Tree :=
  .mk [("x", .mk [] none [⟨.controllerInfo 0⟩])]
    (some (.mk [] none [⟨.controllerInfo 1⟩, ⟨.marker true⟩]))
    [⟨.controllerInfo 2⟩, ⟨.controllerInfo 0⟩]

/-- Patterns of the three routes of `sampleTree`; route 0 already carries `/v1`. -/
def sampleStore : Store := fun c =>
  if c = 0 then "/v1/x" else if c = 1 then "/:id" else "/list"

/-- A gate predicate: only requests for the domain `api.beego.me` may pass. -/
def sampleCond : namespaceCond := fun ctx => ctx.Request == "api.beego.me"

/-- A filter that renders a `401` page. -/
def sampleFilter1 : FilterFunc := fun ctx =>
  { ctx with ResponseWriter := middleware.Exception "401" ctx.ResponseWriter ctx.Request "login" }

/-- A filter that does nothing. -/
def sampleFilter2 : FilterFunc := fun ctx => ctx

/-- The tree that holds the route `/:id` (route 0) of the namespace `/shop`. -/
def shopTree : Tree := NewTree.AddRouter "/:id" (.controllerInfo 0)

/-- The namespace `/shop` with the route `/:id` registered for `GET`. -/
def shopNs : Namespace :=
  { pfx := "/shop", handlers := { NewControllerRegister with routers := [("GET", shopTree)] } }

/-- The namespace `/v1`, without routes of its own. -/
def v1Ns : Namespace := NewNamespace "/v1" []

/-- The namespace `/v1` that already has a `GET` tree, with the route `/ping` (route 1). -/
def v1NsWithGet : Namespace :=
  { pfx := "/v1", handlers := { NewControllerRegister with
      routers := [("GET", NewTree.AddRouter "/ping" (.controllerInfo 1))] } }

/-- A process-wide registry without routes. -/
def emptyApp : App := { Handlers := NewControllerRegister }

/-- A process-wide registry that already has a `GET` tree, with the route `/health`
(route 2). -/
def appWithGet : App :=
  { Handlers := { NewControllerRegister with
      routers := [("GET", NewTree.AddRouter "/health" (.controllerInfo 2))] } }

/-- Patterns of the routes 0, 1 and 2 as registered. -/
def routeStore : Store := fun c =>
  if c = 0 then "/:id" else if c = 1 then "/ping" else "/health"

/-- A parent namespace with one before-route filter (positions: before 0, after 4). -/
def parentWithFilter : Namespace :=
  (NewNamespace "/v1" []).Filter 0 4 "before" [sampleFilter1]

/-- A child namespace with a before-route filter and, set afterwards, a gate. -/
def childWithGate : Namespace :=
  ((NewNamespace "/shop" []).Filter 0 4 "before" [sampleFilter2]).Cond 0 sampleCond

/-- A request that the gate `sampleCond` rejects. -/
def rejectedCtx : Context := { Request := "evil.example", ResponseWriter := [] }

/-! ## Properties of `addPrefix` -/

theorem HasPrefix_iff (s p : String) : strings.HasPrefix s p = true ↔ p.data <+: s.data := by
  unfold strings.HasPrefix
  simp only [Bool.and_eq_true, decide_eq_true_eq, beq_iff_eq, String.length]
  constructor
  · rintro ⟨_, h⟩
    rw [← h]
    exact List.take_prefix _ _
  · intro h
    exact ⟨h.length_le, List.prefix_iff_eq_take.mp h |>.symm⟩

theorem HasPrefix_append (p s : String) : strings.HasPrefix (p ++ s) p = true := by
  rw [HasPrefix_iff, String.data_append]
  exact List.prefix_append _ _

/-- Pointwise description of the leaf loop. -/
theorem addPrefixLeaves_apply (leaves : List leafInfo) (p : String) (σ : Store) (x : Nat) :
    addPrefixLeaves leaves p σ x =
      if x ∈ leafRefs leaves then
        (if strings.HasPrefix (σ x) p then σ x else p ++ σ x)
      else σ x := by
  induction leaves generalizing σ with
  | nil => simp [addPrefixLeaves, leafRefs]
  | cons l rest ih =>
    rcases l with ⟨ro⟩
    cases ro with
    | marker b => simp only [addPrefixLeaves, leafRefs]; exact ih σ
    | controllerInfo c =>
      simp only [addPrefixLeaves, leafRefs, List.mem_cons]
      by_cases hc : strings.HasPrefix (σ c) p = true
      · simp only [hc, Bool.not_true, Bool.false_eq_true, if_false]
        rw [ih σ]
        by_cases hx : x = c
        · subst hx; simp [hc]
        · simp [hx]
      · simp only [hc, Bool.not_false, if_true]
        simp only [Bool.not_eq_true] at hc
        rw [ih]
        by_cases hx : x = c
        · subst hx
          simp [Function.update_same, HasPrefix_append, hc]
        · simp [Function.update_noteq hx, hx]

mutual
/-- Pointwise description of `addPrefix`: exactly the referenced routes are rewritten, each
by check-then-prepend, however many leaves point to them. -/
theorem addPrefix_apply (t : Tree) (p : String) (σ : Store) (x : Nat) :
    addPrefix t p σ x =
      if x ∈ t.refs then
        (if strings.HasPrefix (σ x) p then σ x else p ++ σ x)
      else σ x := by
  match t with
  | .mk fx w lv =>
    simp only [addPrefix, Tree.refs, List.mem_append]
    rw [addPrefixLeaves_apply, addPrefixWild_apply w p _ x, addPrefixFix_apply fx p σ x]
    by_cases h1 : x ∈ refsFix fx <;> by_cases h2 : x ∈ refsWild w <;>
      by_cases h3 : x ∈ leafRefs lv <;>
      by_cases h4 : strings.HasPrefix (σ x) p = true <;>
      simp [h1, h2, h3, h4, HasPrefix_append]
theorem addPrefixFix_apply (fx : List (String × Tree)) (p : String) (σ : Store) (x : Nat) :
    addPrefixFix fx p σ x =
      if x ∈ refsFix fx then
        (if strings.HasPrefix (σ x) p then σ x else p ++ σ x)
      else σ x := by
  match fx with
  | [] => simp [addPrefixFix, refsFix]
  | (k, v) :: rest =>
    simp only [addPrefixFix, refsFix, List.mem_append]
    rw [addPrefixFix_apply rest p _ x, addPrefix_apply v p σ x]
    by_cases h1 : x ∈ v.refs <;> by_cases h2 : x ∈ refsFix rest <;>
      by_cases h4 : strings.HasPrefix (σ x) p = true <;>
      simp [h1, h2, h4, HasPrefix_append]
theorem addPrefixWild_apply (w : Option Tree) (p : String) (σ : Store) (x : Nat) :
    addPrefixWild w p σ x =
      if x ∈ refsWild w then
        (if strings.HasPrefix (σ x) p then σ x else p ++ σ x)
      else σ x := by
  match w with
  | none => simp [addPrefixWild, refsWild]
  | some v =>
    simp only [addPrefixWild, refsWild]
    exact addPrefix_apply v p σ x
end

/-- C3: `addPrefix` is check-then-prepend on every node of the tree: a route stored at any
leaf (below a fixed child, below the wildcard child, or at the node itself) keeps its pattern
when the pattern already starts with the prefix and gets the prefix prepended otherwise; so
afterwards its pattern starts with the prefix.  Routes not in the tree are left alone. -/
theorem addPrefix_check_then_prepend (t : Tree) (p : String) (σ : Store) (c : Nat)
    (hc : c ∈ t.refs) :
    addPrefix t p σ c = (if strings.HasPrefix (σ c) p then σ c else p ++ σ c) ∧
    strings.HasPrefix (addPrefix t p σ c) p = true ∧
    (∀ d, d ∉ t.refs → addPrefix t p σ d = σ d) := by
  refine ⟨?_, ?_, ?_⟩
  · rw [addPrefix_apply, if_pos hc]
  · rw [addPrefix_apply, if_pos hc]
    by_cases h : strings.HasPrefix (σ c) p = true
    · simp [h]
    · simp [h, HasPrefix_append]
  · intro d hd
    rw [addPrefix_apply, if_neg hd]

theorem addPrefix_check_then_prepend_witness :
    (0 ∈ sampleTree.refs ∧ 1 ∈ sampleTree.refs) ∧
    (addPrefix sampleTree "/v1" sampleStore 0 = "/v1/x" ∧
     addPrefix sampleTree "/v1" sampleStore 1 = "/v1/:id") := by
  refine ⟨⟨by decide, by decide⟩, ?_, ?_⟩
  · have h := (addPrefix_check_then_prepend sampleTree "/v1" sampleStore 0 (by decide)).1
    rw [h]; decide
  · have h := (addPrefix_check_then_prepend sampleTree "/v1" sampleStore 1 (by decide)).1
    rw [h]; decide

/-- C1: `addPrefix` is idempotent: running it a second time with the same prefix leaves the
pattern of every route exactly as the first run left it. -/
theorem addPrefix_idempotent (t : Tree) (p : String) (σ : Store) :
    addPrefix t p (addPrefix t p σ) = addPrefix t p σ := by
  funext x
  rw [addPrefix_apply t p (addPrefix t p σ) x, addPrefix_apply t p σ x]
  by_cases h1 : x ∈ t.refs <;> by_cases h4 : strings.HasPrefix (σ x) p = true <;>
    simp [h1, h4, HasPrefix_append]

/-- C2 as stated fails: the route `/v1/x` of `sampleTree` is not turned into `/v1/v1/x`
by `addPrefix(t, "/v1")`; its pattern is left as it is. -/
theorem addPrefix_always_prepends_counterexample :
    0 ∈ sampleTree.refs ∧
    addPrefix sampleTree "/v1" sampleStore 0 = "/v1/x" ∧
    addPrefix sampleTree "/v1" sampleStore 0 ≠ "/v1" ++ sampleStore 0 := by
  decide

/-- C2 (amended): for every route of the tree, the pattern after `addPrefix(t, p)` is
`p ++ s` when its pattern `s` does not already start with the prefix, and a pattern that
already starts with the prefix is left as it is. -/
theorem addPrefix_prepends (t : Tree) (p : String) (σ : Store) (c : Nat)
    (hc : c ∈ t.refs) :
    (strings.HasPrefix (σ c) p = false → addPrefix t p σ c = p ++ σ c) ∧
    (strings.HasPrefix (σ c) p = true → addPrefix t p σ c = σ c) := by
  rw [addPrefix_apply, if_pos hc]
  constructor
  · intro hs
    simp [hs]
  · intro hs
    simp [hs]

theorem addPrefix_prepends_witness :
    ((1 ∈ sampleTree.refs ∧ strings.HasPrefix (sampleStore 1) "/v1" = false) ∧
      addPrefix sampleTree "/v1" sampleStore 1 = "/v1" ++ "/:id") ∧
    ((0 ∈ sampleTree.refs ∧ strings.HasPrefix (sampleStore 0) "/v1" = true) ∧
      addPrefix sampleTree "/v1" sampleStore 0 = "/v1/x") :=
  ⟨⟨⟨by decide, by decide⟩,
      (addPrefix_prepends sampleTree "/v1" sampleStore 1 (by decide)).1 (by decide)⟩,
    ⟨⟨by decide, by decide⟩,
      (addPrefix_prepends sampleTree "/v1" sampleStore 0 (by decide)).2 (by decide)⟩⟩

/-! ## Maps and filter lists -/

theorem mapGet_mapSet_same {κ α : Type} [DecidableEq κ] (m : List (κ × α)) (k : κ) (v : α) :
    mapGet (mapSet m k v) k = some v := by
  induction m with
  | nil => simp [mapSet, mapGet]
  | cons e rest ih =>
    rcases e with ⟨k', v'⟩
    by_cases h : k' = k
    · simp [mapSet, mapGet, h]
    · simp [mapSet, mapGet, h, ih]

theorem mapGet_mapSet_ne {κ α : Type} [DecidableEq κ] (m : List (κ × α)) {k j : κ} (v : α)
    (hj : j ≠ k) : mapGet (mapSet m k v) j = mapGet m j := by
  induction m with
  | nil => simp [mapSet, mapGet, Ne.symm hj]
  | cons e rest ih =>
    rcases e with ⟨k', v'⟩
    by_cases h : k' = k
    · subst h
      simp [mapSet, mapGet, Ne.symm hj]
    · by_cases h2 : k' = j
      · subst h2
        simp [mapSet, mapGet, h]
      · simp [mapSet, mapGet, h, h2, ih]

theorem filtersAt_insertFilterRouter_same (p : ControllerRegistor) (pos : Int)
    (mr : FilterRouter) :
    (p.insertFilterRouter pos mr).filtersAt pos = p.filtersAt pos ++ [mr] := by
  simp [ControllerRegistor.insertFilterRouter, ControllerRegistor.filtersAt, mapGet_mapSet_same]

theorem filtersAt_insertFilterRouter_ne (p : ControllerRegistor) {pos j : Int}
    (mr : FilterRouter) (hj : j ≠ pos) :
    (p.insertFilterRouter pos mr).filtersAt j = p.filtersAt j := by
  simp [ControllerRegistor.insertFilterRouter, ControllerRegistor.filtersAt,
    mapGet_mapSet_ne _ _ hj]

/-- The loop of `Filter`: every function is appended, in order, at position `a`, and no
other position changes. -/
theorem Filter_loop (a : Int) (fs : List FilterFunc) (n : Namespace) :
    (fs.foldl (fun n f => { n with handlers := n.handlers.InsertFilter "*" a f }) n
      ).handlers.filtersAt a =
      n.handlers.filtersAt a ++ fs.map (fun f =>
        { filterFunc := f, tree := NewTree.AddRouter "*" (.marker true), pattern := "*" }) ∧
    ∀ j, j ≠ a →
      (fs.foldl (fun n f => { n with handlers := n.handlers.InsertFilter "*" a f }) n
        ).handlers.filtersAt j = n.handlers.filtersAt j := by
  induction fs generalizing n with
  | nil => simp
  | cons f rest ih =>
    simp only [List.foldl_cons, List.map_cons]
    obtain ⟨h1, h2⟩ := ih { n with handlers := n.handlers.InsertFilter "*" a f }
    refine ⟨?_, ?_⟩
    · rw [h1]
      simp [ControllerRegistor.InsertFilter, filtersAt_insertFilterRouter_same]
    · intro j hj
      rw [h2 j hj]
      simp [ControllerRegistor.InsertFilter, filtersAt_insertFilterRouter_ne _ _ hj]

/-! ## `Cond` and `Filter` -/

/-- C5: `Cond` prepends its gate: after `n.Cond(c)` the before-route list is the new gate
(pattern `*`, running the predicate) followed by exactly the before-route filters `n` had,
in their order; the lists of all other positions are unchanged. -/
theorem Cond_prepends_gate (BeforeRouter : Int) (n : Namespace) (c : namespaceCond) :
    ∃ gate : FilterRouter,
      gate.pattern = "*" ∧
      (∀ ctx, gate.filterFunc ctx =
        if c ctx then ctx
        else { ctx with ResponseWriter :=
          middleware.Exception "405" ctx.ResponseWriter ctx.Request "Method not allowed" }) ∧
      (n.Cond BeforeRouter c).handlers.filtersAt BeforeRouter =
        gate :: n.handlers.filtersAt BeforeRouter ∧
      ∀ pos, pos ≠ BeforeRouter →
        (n.Cond BeforeRouter c).handlers.filtersAt pos = n.handlers.filtersAt pos := by
  refine ⟨⟨fun ctx =>
      if (!c ctx) = true then
        { ctx with ResponseWriter :=
            middleware.Exception "405" ctx.ResponseWriter ctx.Request "Method not allowed" }
      else ctx, NewTree.AddRouter "*" (.marker true), "*"⟩, rfl, ?_, ?_, ?_⟩
  · intro ctx
    by_cases h : c ctx = true
    · simp [h]
    · simp [h]
  · unfold Namespace.Cond
    cases h : mapGet n.handlers.filters BeforeRouter with
    | some v =>
      simp [ControllerRegistor.filtersAt, mapGet_mapSet_same, h]
    | none =>
      simp only [ControllerRegistor.InsertFilter, filtersAt_insertFilterRouter_same]
      simp [ControllerRegistor.filtersAt, h]
  · intro pos hpos
    unfold Namespace.Cond
    cases h : mapGet n.handlers.filters BeforeRouter with
    | some v =>
      simp [ControllerRegistor.filtersAt, mapGet_mapSet_ne _ _ hpos]
    | none =>
      simp only [ControllerRegistor.InsertFilter, filtersAt_insertFilterRouter_ne _ _ hpos]

/-- C6: the gate installed by `Cond(c)` (the head of the before-route list) rejects exactly
when the predicate is false: its run writes the `405` / `Method not allowed` error page iff
`c ctx` is false, and when `c ctx` is true it leaves the context as it was. -/
theorem Cond_gate_rejects_iff (BeforeRouter : Int) (n : Namespace) (c : namespaceCond) :
    ∃ gate rest, (n.Cond BeforeRouter c).handlers.filtersAt BeforeRouter = gate :: rest ∧
      ∀ ctx : Context,
        ((gate.filterFunc ctx).ResponseWriter =
            ctx.ResponseWriter ++ [("405", "Method not allowed")] ↔ c ctx = false) ∧
        (c ctx = false → (gate.filterFunc ctx).Request = ctx.Request) ∧
        (c ctx = true → gate.filterFunc ctx = ctx) := by
  refine ⟨⟨fun ctx =>
      if (!c ctx) = true then
        { ctx with ResponseWriter :=
            middleware.Exception "405" ctx.ResponseWriter ctx.Request "Method not allowed" }
      else ctx, NewTree.AddRouter "*" (.marker true), "*"⟩,
    n.handlers.filtersAt BeforeRouter, ?_, ?_⟩
  · unfold Namespace.Cond
    cases h : mapGet n.handlers.filters BeforeRouter with
    | some v =>
      simp [ControllerRegistor.filtersAt, mapGet_mapSet_same, h]
    | none =>
      simp only [ControllerRegistor.InsertFilter, filtersAt_insertFilterRouter_same]
      simp [ControllerRegistor.filtersAt, h]
  · intro ctx
    by_cases h : c ctx = true
    · simp [h, middleware.Exception]
    · simp [h, middleware.Exception]

/-- C7: `Filter` appends in call order to the named position: `Filter("before", f1..fk)`
extends the before-route list by `f1..fk` (each with pattern `*`) and leaves the after-route
list alone; `Filter("after", ...)` does the same to the after-route (`FinishRouter`) list
and leaves the before-route list alone. -/
theorem Filter_appends_in_call_order (BeforeRouter FinishRouter : Int)
    (hpos : BeforeRouter ≠ FinishRouter) (n : Namespace) (fs : List FilterFunc) :
    ((n.Filter BeforeRouter FinishRouter "before" fs).handlers.filtersAt BeforeRouter =
        n.handlers.filtersAt BeforeRouter ++ fs.map (fun f =>
          { filterFunc := f, tree := NewTree.AddRouter "*" (.marker true), pattern := "*" }) ∧
      (n.Filter BeforeRouter FinishRouter "before" fs).handlers.filtersAt FinishRouter =
        n.handlers.filtersAt FinishRouter) ∧
    ((n.Filter BeforeRouter FinishRouter "after" fs).handlers.filtersAt FinishRouter =
        n.handlers.filtersAt FinishRouter ++ fs.map (fun f =>
          { filterFunc := f, tree := NewTree.AddRouter "*" (.marker true), pattern := "*" }) ∧
      (n.Filter BeforeRouter FinishRouter "after" fs).handlers.filtersAt BeforeRouter =
        n.handlers.filtersAt BeforeRouter) := by
  have hb : (if ("before" : String) = "before" then BeforeRouter
      else if ("before" : String) = "after" then FinishRouter else 0) = BeforeRouter := by simp
  have ha : (if ("after" : String) = "before" then BeforeRouter
      else if ("after" : String) = "after" then FinishRouter else 0) = FinishRouter := by
    rw [if_neg (by decide), if_pos rfl]
  unfold Namespace.Filter
  simp only [hb, ha]
  exact ⟨⟨(Filter_loop BeforeRouter fs n).1, (Filter_loop BeforeRouter fs n).2 _ (Ne.symm hpos)⟩,
    ⟨(Filter_loop FinishRouter fs n).1, (Filter_loop FinishRouter fs n).2 _ hpos⟩⟩

theorem Filter_appends_in_call_order_witness :
    ((0 : Int) ≠ 4) ∧
    (((NewNamespace "/v1" []).Filter 0 4 "before" [sampleFilter1, sampleFilter2]
        ).handlers.filtersAt 0).map (fun mr => mr.pattern) = ["*", "*"] ∧
    (((NewNamespace "/v1" []).Filter 0 4 "before" [sampleFilter1, sampleFilter2]
        ).handlers.filtersAt 4) = [] := by
  have h := (Filter_appends_in_call_order 0 4 (by decide) (NewNamespace "/v1" [])
    [sampleFilter1, sampleFilter2]).1
  refine ⟨by decide, ?_, ?_⟩
  · rw [h.1]; rfl
  · rw [h.2]; rfl

/-- C10: `Filter` does not reject an unrecognised action: for an action other than
`before` and `after` and a non-empty list of functions, every function is registered
(pattern `*`, in call order) at position 0, the zero value of `a`; no other position
changes, and the call is not a no-op (the filter map changes and filters are enabled). -/
theorem Filter_unrecognised_action (BeforeRouter FinishRouter : Int) (n : Namespace)
    (action : String) (fs : List FilterFunc)
    (hb : action ≠ "before") (ha : action ≠ "after") (hfs : fs ≠ []) :
    (n.Filter BeforeRouter FinishRouter action fs).handlers.filtersAt 0 =
      n.handlers.filtersAt 0 ++ fs.map (fun f =>
        { filterFunc := f, tree := NewTree.AddRouter "*" (.marker true), pattern := "*" }) ∧
    (∀ pos, pos ≠ 0 →
      (n.Filter BeforeRouter FinishRouter action fs).handlers.filtersAt pos =
        n.handlers.filtersAt pos) ∧
    (n.Filter BeforeRouter FinishRouter action fs).handlers.filters ≠ n.handlers.filters := by
  have h0 : (if action = "before" then BeforeRouter
      else if action = "after" then FinishRouter else 0) = 0 := by
    rw [if_neg hb, if_neg ha]
  unfold Namespace.Filter
  simp only [h0]
  refine ⟨(Filter_loop 0 fs n).1, (Filter_loop 0 fs n).2, ?_⟩
  intro heq
  have h1 := (Filter_loop 0 fs n).1
  unfold ControllerRegistor.filtersAt at h1
  rw [heq] at h1
  have h2 := congrArg List.length h1
  simp only [List.length_append, List.length_map] at h2
  have : 0 < fs.length := List.length_pos.mpr hfs
  omega

theorem Filter_unrecognised_action_witness :
    (("around" : String) ≠ "before" ∧ ("around" : String) ≠ "after" ∧
      [sampleFilter1] ≠ ([] : List FilterFunc)) ∧
    (((NewNamespace "/v1" []).Filter 1 4 "around" [sampleFilter1]).handlers.filtersAt 0).map
      (fun mr => mr.pattern) = ["*"] := by
  have h := (Filter_unrecognised_action 1 4 (NewNamespace "/v1" []) "around" [sampleFilter1]
    (by decide) (by decide) (by simp)).1
  refine ⟨⟨by decide, by decide, by simp⟩, ?_⟩
  rw [h]; rfl

/-! ## The two grafts: `Namespace.Namespace` and `AddNamespace` -/

theorem AddNamespace_rangeRouters_eq (ni : Namespace) (rs : List (String × Tree))
    (n : Namespace) (σ : Store) :
    AddNamespace.rangeRouters ni rs { Handlers := n.handlers } σ =
      ({ Handlers := (Namespace.rangeRouters ni rs n σ).1.handlers },
        (Namespace.rangeRouters ni rs n σ).2) := by
  induction rs generalizing n σ with
  | nil => rfl
  | cons kv rest ih =>
    rcases kv with ⟨k, v⟩
    unfold AddNamespace.rangeRouters Namespace.rangeRouters
    cases h : mapGet n.handlers.routers k with
    | some t => simp only []; rw [← ih]
    | none => simp only []; rw [← ih]

theorem AddNamespace_rangeFilterList_eq (ni : Namespace) (pos : Int) (l : List FilterRouter)
    (n : Namespace) :
    AddNamespace.rangeFilterList ni pos l { Handlers := n.handlers } =
      ({ Handlers := (Namespace.rangeFilterList ni pos l n).1.handlers },
        (Namespace.rangeFilterList ni pos l n).2) := by
  induction l generalizing n with
  | nil => rfl
  | cons mr rest ih =>
    unfold AddNamespace.rangeFilterList Namespace.rangeFilterList
    simp only []
    rw [ih ⟨n.pfx, n.handlers.insertFilterRouter pos
      ⟨mr.filterFunc, NewTree.AddTree ni.pfx mr.tree, mr.pattern⟩⟩]

theorem AddNamespace_rangeFilters_eq (ni : Namespace) (fl : List (Int × List FilterRouter))
    (n : Namespace) :
    AddNamespace.rangeFilters ni fl { Handlers := n.handlers } =
      ({ Handlers := (Namespace.rangeFilters ni fl n).1.handlers },
        (Namespace.rangeFilters ni fl n).2) := by
  induction fl generalizing n with
  | nil => rfl
  | cons e rest ih =>
    rcases e with ⟨pos, l⟩
    unfold AddNamespace.rangeFilters Namespace.rangeFilters
    simp only []
    rw [AddNamespace_rangeFilterList_eq, ih]

/-- The graft of `AddNamespace` into a registry is the graft of `Namespace.Namespace` into a
namespace that owns this registry. -/
theorem AddNamespace_eq (ns : List Namespace) (n : Namespace) (σ : Store) :
    AddNamespace ns { Handlers := n.handlers } σ =
      ({ Handlers := (Namespace.Namespace n ns σ).1.handlers },
        (Namespace.Namespace n ns σ).2.1, (Namespace.Namespace n ns σ).2.2) := by
  induction ns generalizing n σ with
  | nil => rfl
  | cons ni rest ih =>
    unfold AddNamespace Namespace.Namespace
    simp only []
    rw [AddNamespace_rangeRouters_eq]
    cases he : ni.handlers.enableFilter with
    | true =>
      simp only [if_true]
      rw [AddNamespace_rangeFilters_eq, ih]
    | false =>
      simp only [Bool.false_eq_true, if_false]
      rw [ih]

/-- C8: `AddNamespace` is the graft of `Namespace.Namespace` with another destination: run
on a process-wide registry `R` it yields the same registry (per-method trees, filter lists,
`enableFilter`), the same grafted namespaces and the same route patterns as
`parent.Namespace(ns...)` run on a namespace whose registry is `R`. -/
theorem AddNamespace_same_graft_as_Namespace (R : ControllerRegistor) (p : String)
    (ns : List Namespace) (σ : Store) :
    (AddNamespace ns { Handlers := R } σ).1.Handlers =
      (Namespace.Namespace { pfx := p, handlers := R } ns σ).1.handlers ∧
    (AddNamespace ns { Handlers := R } σ).2.1 =
      (Namespace.Namespace { pfx := p, handlers := R } ns σ).2.1 ∧
    (AddNamespace ns { Handlers := R } σ).2.2 =
      (Namespace.Namespace { pfx := p, handlers := R } ns σ).2.2 := by
  have h := AddNamespace_eq ns { pfx := p, handlers := R } σ
  simp only [] at h
  rw [h]
  exact ⟨rfl, rfl, rfl⟩

/-! ## Grafting filters -/

theorem mapGet_eq_none_of_not_mem {κ α : Type} [DecidableEq κ] (m : List (κ × α)) (k : κ)
    (h : k ∉ m.map Prod.fst) : mapGet m k = none := by
  induction m with
  | nil => rfl
  | cons e rest ih =>
    rcases e with ⟨k', v'⟩
    simp only [List.map_cons, List.mem_cons, not_or] at h
    simp [mapGet, Ne.symm h.1, ih h.2]

theorem rangeRouters_filters (ni : Namespace) (rs : List (String × Tree)) (n : Namespace)
    (σ : Store) :
    (Namespace.rangeRouters ni rs n σ).1.handlers.filters = n.handlers.filters ∧
    (Namespace.rangeRouters ni rs n σ).1.pfx = n.pfx := by
  induction rs generalizing n σ with
  | nil => exact ⟨rfl, rfl⟩
  | cons kv rest ih =>
    rcases kv with ⟨k, v⟩
    unfold Namespace.rangeRouters
    cases h : mapGet n.handlers.routers k with
    | some t => simp only []; exact ih _ _
    | none => simp only []; exact ih _ _

theorem rangeFilterList_filtersAt (ni : Namespace) (pos : Int) (l : List FilterRouter)
    (n : Namespace) (j : Int) :
    (Namespace.rangeFilterList ni pos l n).1.handlers.filtersAt j =
      if j = pos then
        n.handlers.filtersAt j ++
          l.map (fun mr => { mr with tree := NewTree.AddTree ni.pfx mr.tree })
      else n.handlers.filtersAt j := by
  induction l generalizing n with
  | nil => simp [Namespace.rangeFilterList]
  | cons mr rest ih =>
    unfold Namespace.rangeFilterList
    simp only []
    rw [ih]
    by_cases hj : j = pos
    · subst hj
      simp [filtersAt_insertFilterRouter_same]
    · simp [hj, filtersAt_insertFilterRouter_ne _ _ hj]

theorem rangeFilters_filtersAt (ni : Namespace) (fl : List (Int × List FilterRouter))
    (hfl : (fl.map Prod.fst).Nodup) (n : Namespace) (j : Int) :
    (Namespace.rangeFilters ni fl n).1.handlers.filtersAt j =
      n.handlers.filtersAt j ++
        ((mapGet fl j).getD []).map
          (fun mr => { mr with tree := NewTree.AddTree ni.pfx mr.tree }) := by
  induction fl generalizing n with
  | nil => simp [Namespace.rangeFilters, mapGet]
  | cons e rest ih =>
    rcases e with ⟨pos, l⟩
    simp only [List.map_cons, List.nodup_cons] at hfl
    unfold Namespace.rangeFilters
    simp only []
    rw [ih hfl.2, rangeFilterList_filtersAt]
    by_cases hj : j = pos
    · subst hj
      simp [mapGet, mapGet_eq_none_of_not_mem rest j hfl.1]
    · simp [mapGet, hj, Ne.symm hj]

/-- C9: grafting a child's filters preserves order: after `parent.Namespace(child)` with the
child's filters enabled, the parent's list at each position is its previous list followed by
the child's filters of that position in the child's order, each with its tree replaced by a
fresh tree into which the former tree is grafted under the child's prefix; when the child's
filters are not enabled the parent's filter lists are unchanged.  (`filters` is a Go map:
its keys are distinct.) -/
theorem Namespace_grafts_filters_in_order (n ni : Namespace) (σ : Store)
    (hkeys : (ni.handlers.filters.map Prod.fst).Nodup) :
    (ni.handlers.enableFilter = true →
      ∀ pos, (Namespace.Namespace n [ni] σ).1.handlers.filtersAt pos =
        n.handlers.filtersAt pos ++
          (ni.handlers.filtersAt pos).map
            (fun mr => { mr with tree := NewTree.AddTree ni.pfx mr.tree })) ∧
    (ni.handlers.enableFilter = false →
      (Namespace.Namespace n [ni] σ).1.handlers.filters = n.handlers.filters) := by
  constructor
  · intro he pos
    unfold Namespace.Namespace Namespace.Namespace
    simp only [he, if_true]
    rw [rangeFilters_filtersAt _ _ hkeys]
    unfold ControllerRegistor.filtersAt
    rw [(rangeRouters_filters ni ni.handlers.routers n σ).1]
  · intro he
    unfold Namespace.Namespace Namespace.Namespace
    simp only [he, Bool.false_eq_true, if_false]
    exact (rangeRouters_filters ni ni.handlers.routers n σ).1

/-! ## Routes through a graft -/

theorem leafRefs_append (a b : List leafInfo) :
    leafRefs (a ++ b) = leafRefs a ++ leafRefs b := by
  induction a with
  | nil => rfl
  | cons l rest ih =>
    rcases l with ⟨ro⟩
    cases ro <;> simp [leafRefs, ih]

theorem NewTree_refs : NewTree.refs = [] := by
  simp [NewTree, Tree.refs, refsFix, refsWild, leafRefs]

/-- Writing `fx[k] = v`, where `v` holds the routes of the old `fx[k]` and those of `P`,
adds exactly the routes of `P` to the map. -/
theorem mem_refsFix_mapSet (fx : List (String × Tree)) (k : String) (v : Tree) (x : Nat)
    (P : Prop) (hv : x ∈ v.refs ↔ x ∈ ((mapGet fx k).getD NewTree).refs ∨ P) :
    x ∈ refsFix (mapSet fx k v) ↔ x ∈ refsFix fx ∨ P := by
  induction fx with
  | nil =>
    simp only [mapGet, Option.getD_none, NewTree_refs, List.not_mem_nil, false_or] at hv
    simp [mapSet, refsFix, hv]
  | cons e rest ih =>
    rcases e with ⟨k', v'⟩
    by_cases h : k' = k
    · subst h
      simp only [mapGet, if_true, Option.getD_some] at hv
      simp only [mapSet, if_true, refsFix, List.mem_append, hv]
      tauto
    · simp only [mapGet, if_neg h] at hv
      simp only [mapSet, if_neg h, refsFix, List.mem_append, ih hv]
      tauto

mutual
/-- A merge keeps the routes of both trees and adds none. -/
theorem mem_refs_merge (tree t : Tree) (x : Nat) :
    x ∈ (Tree.merge tree t).refs ↔ x ∈ t.refs ∨ x ∈ tree.refs := by
  match tree, t with
  | .mk sfx sw slv, .mk fx w lv =>
    simp only [Tree.merge, Tree.refs, List.mem_append, leafRefs_append]
    rw [mem_refsFix_mergeFix sfx fx x, mem_refsWild_mergeWild sw w x]
    tauto
theorem mem_refsFix_mergeFix (sfx fx : List (String × Tree)) (x : Nat) :
    x ∈ refsFix (mergeFix sfx fx) ↔ x ∈ refsFix fx ∨ x ∈ refsFix sfx := by
  match sfx with
  | [] => simp [mergeFix, refsFix]
  | (seg, c) :: rest =>
    simp only [mergeFix, refsFix, List.mem_append]
    rw [mem_refsFix_mergeFix rest _ x]
    have hv : x ∈ (match mapGet fx seg with
        | some d => Tree.merge c d
        | none => c).refs ↔ x ∈ ((mapGet fx seg).getD NewTree).refs ∨ x ∈ c.refs := by
      cases h : mapGet fx seg with
      | none => simp [NewTree_refs]
      | some d =>
        simp only [Option.getD_some]
        exact mem_refs_merge c d x
    rw [mem_refsFix_mapSet fx seg _ x (x ∈ c.refs) hv]
    tauto
theorem mem_refsWild_mergeWild (sw w : Option Tree) (x : Nat) :
    x ∈ refsWild (mergeWild sw w) ↔ x ∈ refsWild w ∨ x ∈ refsWild sw := by
  match sw, w with
  | none, w => simp [mergeWild, refsWild]
  | some c, none => simp [mergeWild, refsWild]
  | some c, some d =>
    simp only [mergeWild, refsWild]
    exact mem_refs_merge c d x
end

theorem mem_refs_addtree (segs : List String) (tree t : Tree) (x : Nat) :
    x ∈ (Tree.addtree segs tree t).refs ↔ x ∈ t.refs ∨ x ∈ tree.refs := by
  induction segs generalizing t with
  | nil =>
    simp only [Tree.addtree]
    exact mem_refs_merge tree t x
  | cons seg rest ih =>
    rcases t with ⟨fx, w, lv⟩
    simp only [Tree.addtree, Tree.refs, List.mem_append]
    rw [mem_refsFix_mapSet fx seg _ x (x ∈ tree.refs) (ih _)]
    tauto

/-- A graft keeps the routes of the destination and of the grafted tree, and adds none. -/
theorem mem_refs_AddTree (t : Tree) (p : String) (tree : Tree) (x : Nat) :
    x ∈ (t.AddTree p tree).refs ↔ x ∈ t.refs ∨ x ∈ tree.refs :=
  mem_refs_addtree (splitPath p) tree t x

theorem mem_refsFix_of_mem (rs : List (String × Tree)) (k : String) (T : Tree) (x : Nat)
    (hT : (k, T) ∈ rs) (hx : x ∈ T.refs) : x ∈ refsFix rs := by
  induction rs with
  | nil => cases hT
  | cons e rest ih =>
    rcases e with ⟨k', v'⟩
    simp only [refsFix, List.mem_append]
    rcases List.mem_cons.mp hT with h | h
    · cases h
      exact Or.inl hx
    · exact Or.inr (ih h)

theorem mem_of_mapGet {κ α : Type} [DecidableEq κ] (m : List (κ × α)) (k : κ) (v : α)
    (h : mapGet m k = some v) : (k, v) ∈ m := by
  induction m with
  | nil => simp [mapGet] at h
  | cons e rest ih =>
    rcases e with ⟨k', v'⟩
    by_cases hk : k' = k
    · subst hk
      simp only [mapGet, if_true, Option.some.injEq] at h
      subst h
      exact List.mem_cons_self _ _
    · simp only [mapGet, if_neg hk] at h
      exact List.mem_cons_of_mem _ (ih h)

/-- The heap after the router loop of a graft: the routes of the grafted trees, and only
they, went through check-then-prepend with the prefix of the grafted namespace. -/
theorem rangeRouters_store (ni : Namespace) (rs : List (String × Tree)) (n : Namespace)
    (σ : Store) (x : Nat) :
    (Namespace.rangeRouters ni rs n σ).2 x =
      if x ∈ refsFix rs then
        (if strings.HasPrefix (σ x) ni.pfx then σ x else ni.pfx ++ σ x)
      else σ x := by
  induction rs generalizing n σ with
  | nil => simp [Namespace.rangeRouters, refsFix]
  | cons kv rest ih =>
    rcases kv with ⟨k, v⟩
    unfold Namespace.rangeRouters
    cases h : mapGet n.handlers.routers k with
    | some t =>
      simp only [refsFix, List.mem_append]
      rw [ih, addPrefix_apply]
      by_cases h1 : x ∈ v.refs <;> by_cases h2 : x ∈ refsFix rest <;>
        by_cases h4 : strings.HasPrefix (σ x) ni.pfx = true <;>
        simp [h1, h2, h4, HasPrefix_append]
    | none =>
      simp only [refsFix, List.mem_append]
      rw [ih, addPrefix_apply]
      have hm : x ∈ (NewTree.AddTree ni.pfx v).refs ↔ x ∈ v.refs := by
        rw [mem_refs_AddTree, NewTree_refs]
        simp
      by_cases h1 : x ∈ v.refs <;> by_cases h2 : x ∈ refsFix rest <;>
        by_cases h4 : strings.HasPrefix (σ x) ni.pfx = true <;>
        simp [hm, h1, h2, h4, HasPrefix_append]

/-- A route held by the destination tree of method `k`, or by a grafted tree of method `k`,
is held by the destination tree of method `k` after the router loop. -/
theorem rangeRouters_holds (ni : Namespace) (rs : List (String × Tree)) (n : Namespace)
    (σ : Store) (k : String) (x : Nat)
    (h : (∃ D, mapGet n.handlers.routers k = some D ∧ x ∈ D.refs) ∨
      (∃ T, (k, T) ∈ rs ∧ x ∈ T.refs)) :
    ∃ D, mapGet (Namespace.rangeRouters ni rs n σ).1.handlers.routers k = some D ∧
      x ∈ D.refs := by
  induction rs generalizing n σ with
  | nil =>
    rcases h with h | ⟨T, hT, _⟩
    · exact h
    · cases hT
  | cons kv rest ih =>
    rcases kv with ⟨k1, v1⟩
    unfold Namespace.rangeRouters
    cases hg : mapGet n.handlers.routers k1 with
    | some t =>
      simp only []
      apply ih
      rcases h with ⟨D, hD, hx⟩ | ⟨T, hT, hx⟩
      · left
        by_cases hk : k = k1
        · subst hk
          rw [hg] at hD
          cases hD
          exact ⟨_, mapGet_mapSet_same _ _ _, (mem_refs_AddTree _ _ _ _).mpr (Or.inl hx)⟩
        · exact ⟨D, by rw [mapGet_mapSet_ne _ _ hk]; exact hD, hx⟩
      · rcases List.mem_cons.mp hT with he | ht
        · cases he
          left
          exact ⟨_, mapGet_mapSet_same _ _ _, (mem_refs_AddTree _ _ _ _).mpr (Or.inr hx)⟩
        · right
          exact ⟨T, ht, hx⟩
    | none =>
      simp only []
      apply ih
      rcases h with ⟨D, hD, hx⟩ | ⟨T, hT, hx⟩
      · left
        by_cases hk : k = k1
        · subst hk
          rw [hg] at hD
          cases hD
        · exact ⟨D, by rw [mapGet_mapSet_ne _ _ hk]; exact hD, hx⟩
      · rcases List.mem_cons.mp hT with he | ht
        · cases he
          left
          exact ⟨_, mapGet_mapSet_same _ _ _, (mem_refs_AddTree _ _ _ _).mpr (Or.inr hx)⟩
        · right
          exact ⟨T, ht, hx⟩

theorem rangeFilterList_routers (ni : Namespace) (pos : Int) (l : List FilterRouter)
    (n : Namespace) :
    (Namespace.rangeFilterList ni pos l n).1.handlers.routers = n.handlers.routers ∧
    (Namespace.rangeFilterList ni pos l n).1.pfx = n.pfx := by
  induction l generalizing n with
  | nil => exact ⟨rfl, rfl⟩
  | cons mr rest ih =>
    unfold Namespace.rangeFilterList
    simp only []
    exact ih _

theorem rangeFilters_routers (ni : Namespace) (fl : List (Int × List FilterRouter))
    (n : Namespace) :
    (Namespace.rangeFilters ni fl n).1.handlers.routers = n.handlers.routers ∧
    (Namespace.rangeFilters ni fl n).1.pfx = n.pfx := by
  induction fl generalizing n with
  | nil => exact ⟨rfl, rfl⟩
  | cons e rest ih =>
    rcases e with ⟨pos, l⟩
    unfold Namespace.rangeFilters
    simp only []
    rw [(ih _).1, (ih _).2]
    exact rangeFilterList_routers ni pos l n

/-- Grafting one namespace: the receiver keeps its prefix, its trees are those the router
loop built, and the heap is the one the router loop left. -/
theorem Namespace_single (n ni : Namespace) (σ : Store) :
    (Namespace.Namespace n [ni] σ).1.pfx = n.pfx ∧
    (Namespace.Namespace n [ni] σ).1.handlers.routers =
      (Namespace.rangeRouters ni ni.handlers.routers n σ).1.handlers.routers ∧
    (Namespace.Namespace n [ni] σ).2.2 =
      (Namespace.rangeRouters ni ni.handlers.routers n σ).2 := by
  unfold Namespace.Namespace Namespace.Namespace
  cases he : ni.handlers.enableFilter with
  | true =>
    simp [(rangeFilters_routers _ _ _).2, (rangeRouters_filters _ _ _ _).2,
      (rangeFilters_routers _ _ _).1]
  | false =>
    simp [(rangeRouters_filters _ _ _ _).2]

/-- C4: nested prefixes accumulate innermost-first: a route with pattern `s` held by a tree
of a namespace with prefix `p`, nested by `Namespace` into a namespace with prefix `q` that
is then registered by `AddNamespace`, where `s` does not start with `p` and `p ++ s` does not
start with `q`, has pattern `p ++ s` after the nesting and `q ++ p ++ s` after the
registration, and the process-wide tree of its method holds it; this is so for every
registry of the outer namespace and every process-wide registry, that is, in both branches
of either graft. -/
theorem nested_prefixes_accumulate (shop v1 : Namespace) (BeeApp : App) (σ : Store)
    (method : String) (T : Tree) (c : Nat)
    (hT : (method, T) ∈ shop.handlers.routers) (hc : c ∈ T.refs)
    (hp : strings.HasPrefix (σ c) shop.pfx = false)
    (hq : strings.HasPrefix (shop.pfx ++ σ c) v1.pfx = false) :
    (Namespace.Namespace v1 [shop] σ).2.2 c = shop.pfx ++ σ c ∧
    (AddNamespace [(Namespace.Namespace v1 [shop] σ).1] BeeApp
      (Namespace.Namespace v1 [shop] σ).2.2).2.2 c = v1.pfx ++ (shop.pfx ++ σ c) ∧
    ∃ D, mapGet (AddNamespace [(Namespace.Namespace v1 [shop] σ).1] BeeApp
      (Namespace.Namespace v1 [shop] σ).2.2).1.Handlers.routers method = some D ∧
      c ∈ D.refs := by
  have hN := Namespace_single v1 shop σ
  have hx : c ∈ refsFix shop.handlers.routers := mem_refsFix_of_mem _ _ _ _ hT hc
  have h1 : (Namespace.Namespace v1 [shop] σ).2.2 c = shop.pfx ++ σ c := by
    rw [hN.2.2, rangeRouters_store, if_pos hx]
    simp [hp]
  obtain ⟨D1, hD1, hcD1⟩ : ∃ D, mapGet (Namespace.Namespace v1 [shop] σ).1.handlers.routers
      method = some D ∧ c ∈ D.refs := by
    rw [hN.2.1]
    exact rangeRouters_holds _ _ _ _ _ _ (Or.inr ⟨T, hT, hc⟩)
  have hmem := mem_of_mapGet _ _ _ hD1
  have hx1 : c ∈ refsFix (Namespace.Namespace v1 [shop] σ).1.handlers.routers :=
    mem_refsFix_of_mem _ _ _ _ hmem hcD1
  rcases BeeApp with ⟨R⟩
  have hA := AddNamespace_eq [(Namespace.Namespace v1 [shop] σ).1] ⟨"", R⟩
    (Namespace.Namespace v1 [shop] σ).2.2
  simp only [] at hA
  have hS := Namespace_single ⟨"", R⟩ (Namespace.Namespace v1 [shop] σ).1
    (Namespace.Namespace v1 [shop] σ).2.2
  rw [hA]
  refine ⟨h1, ?_, ?_⟩
  · simp only []
    rw [hS.2.2, rangeRouters_store, if_pos hx1, h1, hN.1]
    simp [hq]
  · simp only []
    rw [hS.2.1]
    exact rangeRouters_holds _ _ _ _ _ _ (Or.inr ⟨D1, hmem, hcD1⟩)

theorem nested_prefixes_accumulate_witness :
    ((("GET", shopTree) ∈ shopNs.handlers.routers ∧ 0 ∈ shopTree.refs) ∧
      strings.HasPrefix (routeStore 0) "/shop" = false ∧
      strings.HasPrefix ("/shop" ++ routeStore 0) "/v1" = false) ∧
    (AddNamespace [(Namespace.Namespace v1Ns [shopNs] routeStore).1] emptyApp
      (Namespace.Namespace v1Ns [shopNs] routeStore).2.2).2.2 0 = "/v1/shop/:id" ∧
    (AddNamespace [(Namespace.Namespace v1NsWithGet [shopNs] routeStore).1] appWithGet
      (Namespace.Namespace v1NsWithGet [shopNs] routeStore).2.2).2.2 0 = "/v1/shop/:id" := by
  have hin : ("GET", shopTree) ∈ shopNs.handlers.routers := List.mem_cons_self _ _
  have h0 : 0 ∈ shopTree.refs := by decide
  refine ⟨⟨⟨hin, h0⟩, by decide, by decide⟩, ?_, ?_⟩
  · exact (nested_prefixes_accumulate shopNs v1Ns emptyApp routeStore "GET" shopTree 0
      hin h0 (by decide) (by decide)).2.1
  · exact (nested_prefixes_accumulate shopNs v1NsWithGet appWithGet routeStore "GET" shopTree 0
      hin h0 (by decide) (by decide)).2.1

theorem Namespace_grafts_filters_in_order_witness :
    ((childWithGate.handlers.filters.map Prod.fst).Nodup ∧
      childWithGate.handlers.enableFilter = true) ∧
    ((Namespace.Namespace parentWithFilter [childWithGate] routeStore).1.handlers.filtersAt 0
      ).map (fun mr => (mr.filterFunc rejectedCtx).ResponseWriter) =
      [[("401", "login")], [("405", "Method not allowed")], []] := by
  have hk : (childWithGate.handlers.filters.map Prod.fst).Nodup := by decide
  refine ⟨⟨hk, rfl⟩, ?_⟩
  rw [(Namespace_grafts_filters_in_order parentWithFilter childWithGate routeStore hk).1 rfl 0]
  decide

end Beegae
